import Mathlib

/-!
Verification of the OfflineHomesteadAI hybrid-search pipeline against its
natural-language specification. The Rust sources under the crates
localdb-vector, localdb-hybrid and localdb-core are shallowly embedded:
machine integers become Nat, f32 scores and vector components become the
rationals, fallible code returns Except, and table state becomes explicit
lists of rows. Each embedded definition is named after the source function
it models.
-/

/-! ## Index builder: compute_ivfpq_params (index_build.rs) -/

structure IvfPqParams where
  nlist : Nat
  m : Nat
  nbits : Nat
deriving DecidableEq, Repr

/-- Embeds compute_ivfpq_params from index_build.rs. The source computes
sqrt via f64; for row counts below 2^52 the truncating cast equals the
natural-number square root, which is how it is rendered here. -/
def compute_ivfpq_params (total_ready : Nat) (dim : Nat) : IvfPqParams :=
  let sqrt_n := Nat.sqrt total_ready
  let nlist0 := max 2048 (2 * sqrt_n)
  let nlist1 := min nlist0 65536
  let nlist := if total_ready > 1 then min nlist1 (total_ready - 1) else 1
  { nlist := nlist, m := if dim ≥ 1024 then 32 else 16, nbits := 8 }

/-- Modelled from the spec: clamp(x, lo, hi) as used in the nlist formula. -/
def clampSpec (x lo hi : Nat) : Nat := max lo (min x hi)

/-! ## Index builder: validate_index (index_build.rs) -/

/-- Embeds validate_index from index_build.rs. The table scan is the list
of optional vectors in the vector column limited to the first
sample rows; the ANN query is the abstract search argument. The
source counts probes whose first result batch is non-empty and
returns ok greater than zero. -/
def validate_index (rows : List (Option (List ℚ))) (k sample : Nat)
    (search : List ℚ → Nat → List String) : Bool :=
  let scanned := rows.take sample
  let ok : Nat := scanned.foldl (fun n r =>
    match r with
    | none => n
    | some q => if (search q k).length > 0 then n + 1 else n) 0
  decide (ok > 0)

/-! ## Vector searcher: search_vec (search.rs) -/

inductive SourceKind where
  | Vector
  | Text
deriving DecidableEq, Repr

structure SearchHit where
  id : String
  score : ℚ
  source : SourceKind
deriving DecidableEq, Repr

/-- Embeds the result-mapping loop of VectorIndexer search_vec in
search.rs: each row yields score 1 - distance when the result batch
carries a distance column, and 0.5 otherwise; the source tag is
Vector. No clamping appears in the source. -/
def search_vec (rows : List (String × ℚ)) (hasDistance : Bool) : List SearchHit :=
  rows.map (fun r =>
    { id := r.1, score := if hasDistance then 1 - r.2 else 1/2,
      source := SourceKind.Vector })

/-- Modelled from the spec: similarity clamped to the unit interval. -/
def clamp01_spec (q : ℚ) : ℚ := max 0 (min 1 q)

/-! ## Theorems for C5 -/

/-- C5: compute_ivfpq_params returns nlist = clamp(max(2048, 2 floor(sqrt N)),
1, min(65536, N - 1)) when N is above 1, nlist = 1 when N is at most 1,
nbits = 8; in particular compute_ivfpq_params(300, 1024) has nlist at
most 299, m = 32 and nbits = 8. -/
theorem compute_ivfpq_params_spec (N D : Nat) :
    compute_ivfpq_params N D =
      { nlist := if N > 1 then
                   clampSpec (max 2048 (2 * Nat.sqrt N)) 1 (min 65536 (N - 1))
                 else 1,
        m := if D ≥ 1024 then 32 else 16,
        nbits := 8 } ∧
    (compute_ivfpq_params 300 1024).nlist ≤ 299 ∧
    (compute_ivfpq_params 300 1024).m = 32 ∧
    (compute_ivfpq_params 300 1024).nbits = 8 := by
  have h17 : Nat.sqrt 300 = 17 := by
    have h1 : 17 ≤ Nat.sqrt 300 := Nat.le_sqrt.mpr (by norm_num)
    have h2 : Nat.sqrt 300 < 18 := Nat.sqrt_lt.mpr (by norm_num)
    omega
  refine ⟨?_, ?_, by rfl, by rfl⟩
  · unfold compute_ivfpq_params clampSpec
    by_cases h : N > 1
    · simp only [if_pos h, IvfPqParams.mk.injEq, and_true, eq_self_iff_true]
      omega
    · simp only [if_neg h]
  · simp only [compute_ivfpq_params, h17]
    norm_num

/-! ## Theorems for C2 -/

/-- An example ANN search used to exhibit the validate_index behavior:
probes for the vector [1] find a hit, probes for anything else find
nothing. -/
def cexProbeSearch (q : List ℚ) (_k : Nat) : List String :=
  if q = [1] then ["hit"] else []

/-- C2 counterexample: with two sampled non-null vectors where only the
first probe returns a result, validate_index reports the build valid even
though the second probe returns an empty result, refuting the claim that
validity requires every probe to return at least one result. -/
theorem validate_index_cex :
    validate_index [some [(1 : ℚ)], some [2]] 10 2 cexProbeSearch = true ∧
    cexProbeSearch [2] 10 = [] := by
  constructor
  · rfl
  · rfl

/-- C2 amended: validate_index returns true iff at least one sampled probe
(a non-null vector among the first sample scanned rows) runs a top-k
search with a non-empty result; in particular it returns false only when
every probe comes back empty, not the other way around. -/
theorem validate_index_iff_some_probe (rows : List (Option (List ℚ)))
    (k sample : Nat) (search : List ℚ → Nat → List String) :
    validate_index rows k sample search = true ↔
      ∃ q, some q ∈ rows.take sample ∧ search q k ≠ [] := by
  have key : ∀ (l : List (Option (List ℚ))) (n : Nat),
      (l.foldl (fun n r =>
        match r with
        | none => n
        | some q => if (search q k).length > 0 then n + 1 else n) n) > 0 ↔
      n > 0 ∨ ∃ q, some q ∈ l ∧ search q k ≠ [] := by
    intro l
    induction l with
    | nil => intro n; simp
    | cons r rs ih =>
      intro n
      cases r with
      | none =>
        simp only [List.foldl_cons, List.mem_cons, ih]
        constructor
        · rintro (hn | ⟨q, hq, hs⟩)
          · exact Or.inl hn
          · exact Or.inr ⟨q, Or.inr hq, hs⟩
        · rintro (hn | ⟨q, hq | hq, hs⟩)
          · exact Or.inl hn
          · cases hq
          · exact Or.inr ⟨q, hq, hs⟩
      | some q0 =>
        simp only [List.foldl_cons, List.mem_cons, ih]
        by_cases hq0 : (search q0 k).length > 0
        · simp only [if_pos hq0]
          constructor
          · intro _
            exact Or.inr ⟨q0, Or.inl rfl, by
              intro hnil
              rw [hnil] at hq0
              simp at hq0⟩
          · intro _
            omega
        · simp only [if_neg hq0]
          have hq0e : search q0 k = [] := by
            cases he : search q0 k with
            | nil => rfl
            | cons a l => rw [he] at hq0; simp at hq0
          constructor
          · rintro (hn | ⟨q, hq, hs⟩)
            · exact Or.inl hn
            · exact Or.inr ⟨q, Or.inr hq, hs⟩
          · rintro (hn | ⟨q, hq | hq, hs⟩)
            · exact Or.inl hn
            · cases hq; exact absurd hq0e hs
            · exact Or.inr ⟨q, hq, hs⟩
  unfold validate_index
  rw [decide_eq_true_iff]
  rw [key (rows.take sample) 0]
  simp

/-- C2 witness: applying the amended theorem at a concrete sample where
one probe succeeds. -/
theorem validate_index_iff_some_probe_witness :
    validate_index [some [(1 : ℚ)]] 10 1 cexProbeSearch = true :=
  (validate_index_iff_some_probe [some [(1 : ℚ)]] 10 1 cexProbeSearch).mpr
    ⟨[1], by decide, by decide⟩

/-! ## Theorems for C3 -/

/-- C3 counterexample: a result row at cosine distance 3/2 is returned
with similarity 1 - 3/2 = -1/2, which is not clamped to [0, 1]: the
clamped value would be 0 and the returned similarity is negative. -/
theorem search_vec_cex :
    search_vec [("x", (3 : ℚ)/2)] true =
      [{ id := "x", score := -(1/2), source := SourceKind.Vector }] ∧
    clamp01_spec (1 - (3 : ℚ)/2) = 0 ∧
    ((-(1/2) : ℚ) ≠ clamp01_spec (1 - (3 : ℚ)/2)) ∧
    ¬ (0 ≤ (-(1/2) : ℚ)) := by
  refine ⟨?_, by norm_num [clamp01_spec], by norm_num [clamp01_spec], by norm_num⟩
  simp only [search_vec, List.map_cons, List.map_nil, if_pos]
  norm_num

/-- C3 amended: each hit returned by search_vec carries similarity exactly
1 - distance with no clamping when the distance column is present (and the
constant 1/2 when it is absent); similarities therefore lie in [-1, 1]
when distances lie in [0, 2], but not necessarily in [0, 1]. -/
theorem search_vec_score_spec (rows : List (String × ℚ)) :
    ((search_vec rows true).map SearchHit.score = rows.map (fun r => 1 - r.2)) ∧
    (∀ h ∈ search_vec rows false, h.score = 1/2) ∧
    ((∀ r ∈ rows, 0 ≤ r.2 ∧ r.2 ≤ 2) →
      ∀ h ∈ search_vec rows true, -1 ≤ h.score ∧ h.score ≤ 1) := by
  refine ⟨?_, ?_, ?_⟩
  · simp [search_vec, List.map_map]
  · intro h hh
    simp only [search_vec, List.mem_map] at hh
    obtain ⟨r, _, rfl⟩ := hh
    simp
  · intro hb h hh
    simp only [search_vec, List.mem_map] at hh
    obtain ⟨r, hr, rfl⟩ := hh
    have := hb r hr
    constructor
    · simp only [if_pos]
      linarith [this.2]
    · simp only [if_pos]
      linarith [this.1]

/-- C3 amended witness: the amended theorem applied at a single row with
distance 1/2, whose similarity is 1/2. -/
theorem search_vec_score_spec_witness :
    (∀ r ∈ [("x", (1 : ℚ)/2)], 0 ≤ r.2 ∧ r.2 ≤ 2) ∧
    (∀ h ∈ search_vec [("x", (1 : ℚ)/2)] true, -1 ≤ h.score ∧ h.score ≤ 1) := by
  have hb : ∀ r ∈ [("x", (1 : ℚ)/2)], 0 ≤ r.2 ∧ r.2 ≤ 2 := by
    intro r hr
    simp only [List.mem_singleton] at hr
    subst hr
    norm_num
  exact ⟨hb, (search_vec_score_spec [("x", (1 : ℚ)/2)]).2.2 hb⟩

/-! ## Hybrid fuser: HybridSearchEngine query (localdb-hybrid lib.rs) -/

/-- Embeds the HashMap entry/and_modify/or_insert step of the merge loop:
replace the existing hit for the id when the new score is strictly
higher, otherwise keep it; append when the id is new. The HashMap keeps
one entry per key, so replacing the first match is exact. -/
def upsertHit : List SearchHit → SearchHit → List SearchHit
  | [], h => [h]
  | x :: xs, h =>
    if x.id = h.id then (if h.score > x.score then h else x) :: xs
    else x :: upsertHit xs h

/-- Embeds the merge loop of HybridSearchEngine query: dense hits are
chained before text hits and folded into the by-id map. -/
def mergeById (hits : List SearchHit) : List SearchHit :=
  hits.foldl upsertHit []

/-- Embeds the sort_by call: a stable sort on score descending, which is
what the Rust stable sort with the flipped partial_cmp comparator
produces. -/
def sortByScoreDesc (l : List SearchHit) : List SearchHit :=
  List.insertionSort (fun a b => b.score ≤ a.score) l

/-- Embeds HybridSearchEngine query after both searches return: tag the
dense hits Vector and the text hits Text, merge by id keeping the higher
score, sort by score descending and truncate to k. -/
def HybridSearchEngine.query (dense lex : List SearchHit) (k : Nat) : List SearchHit :=
  let denseTagged := dense.map (fun h => { h with source := SourceKind.Vector })
  let lexTagged := lex.map (fun h => { h with source := SourceKind.Text })
  (sortByScoreDesc (mergeById (denseTagged ++ lexTagged))).take k

/-- Lookup in the by-id map, mirroring a HashMap get. -/
def lookupHit (m : List SearchHit) (i : String) : Option SearchHit :=
  m.find? (fun h => h.id == i)

theorem lookupHit_upsert_self (m : List SearchHit) (h : SearchHit) :
    lookupHit (upsertHit m h) h.id =
      some (match lookupHit m h.id with
            | none => h
            | some old => if h.score > old.score then h else old) := by
  induction m with
  | nil => simp [upsertHit, lookupHit]
  | cons x xs ih =>
    by_cases hx : x.id = h.id
    · simp only [upsertHit, if_pos hx, lookupHit, List.find?]
      by_cases hs : h.score > x.score
      · simp [if_pos hs, lookupHit, List.find?, hx]
      · simp [if_neg hs, lookupHit, List.find?, hx]
    · simp only [upsertHit, if_neg hx, lookupHit, List.find?] at ih ⊢
      have hxb : (x.id == h.id) = false := by
        simp [hx]
      simp only [hxb]
      exact ih

theorem lookupHit_upsert_other (m : List SearchHit) (h : SearchHit) (i : String)
    (hne : i ≠ h.id) :
    lookupHit (upsertHit m h) i = lookupHit m i := by
  induction m with
  | nil =>
    simp [upsertHit, lookupHit, List.find?, show (h.id == i) = false by simp [Ne.symm hne]]
  | cons x xs ih =>
    by_cases hx : x.id = h.id
    · have hxi : (x.id == i) = false := by
        simp [hx, Ne.symm hne]
      by_cases hs : h.score > x.score
      · simp [upsertHit, if_pos hx, if_pos hs, lookupHit, List.find?, hxi,
          show (h.id == i) = false by simp [Ne.symm hne]]
      · simp [upsertHit, if_pos hx, if_neg hs, lookupHit, List.find?, hxi]
    · by_cases hxi : x.id = i
      · simp [upsertHit, if_neg hx, lookupHit, List.find?, hxi, hne]
      · have hxib : (x.id == i) = false := by simp [hxi]
        simp only [upsertHit, if_neg hx, lookupHit, List.find?, hxib] at ih ⊢
        exact ih

theorem lookupHit_foldl_not_mem (l m : List SearchHit) (i : String)
    (hni : ∀ h ∈ l, h.id ≠ i) :
    lookupHit (l.foldl upsertHit m) i = lookupHit m i := by
  induction l generalizing m with
  | nil => rfl
  | cons x xs ih =>
    rw [List.foldl_cons]
    rw [ih (upsertHit m x) (fun h hh => hni h (List.mem_cons_of_mem x hh))]
    exact lookupHit_upsert_other m x i (fun he => hni x (List.mem_cons_self x xs) he.symm)

theorem lookupHit_foldl_mem (l m : List SearchHit) (t : SearchHit)
    (hnd : (l.map SearchHit.id).Nodup) (ht : t ∈ l) :
    lookupHit (l.foldl upsertHit m) t.id =
      some (match lookupHit m t.id with
            | none => t
            | some old => if t.score > old.score then t else old) := by
  induction l generalizing m with
  | nil => cases ht
  | cons x xs ih =>
    simp only [List.map_cons, List.nodup_cons] at hnd
    rcases List.mem_cons.mp ht with rfl | htx
    · have hrest : ∀ h ∈ xs, h.id ≠ t.id := by
        intro h hh he
        exact hnd.1 (he ▸ List.mem_map_of_mem SearchHit.id hh)
      rw [List.foldl_cons, lookupHit_foldl_not_mem xs (upsertHit m t) t.id hrest]
      exact lookupHit_upsert_self m t
    · have hxid : x.id ≠ t.id := by
        intro he
        exact hnd.1 (he ▸ List.mem_map_of_mem SearchHit.id htx)
      rw [List.foldl_cons, ih (upsertHit m x) hnd.2 htx,
        lookupHit_upsert_other m x t.id (Ne.symm hxid)]

/-! ## Theorems for C4 -/

/-- C4: in the hybrid merge, for each id present in both streams the hit
with the strictly higher score is kept and an equal-score tie resolves to
the vector (dense) hit; the merged hits are sorted by score descending
and truncated to k; in particular for lex [(x, 1.0)] and vec [(x, 0.9)]
the single result is x with the lexical source and score 1.0. -/
theorem hybrid_query_merge_spec (dense lex : List SearchHit) (k : Nat)
    (hd : (dense.map SearchHit.id).Nodup) (hl : (lex.map SearchHit.id).Nodup) :
    (∀ d ∈ dense, ∀ t ∈ lex, d.id = t.id →
      lookupHit (mergeById
        ((dense.map (fun h => { h with source := SourceKind.Vector })) ++
         (lex.map (fun h => { h with source := SourceKind.Text })))) d.id =
        some (if t.score > d.score then { t with source := SourceKind.Text }
              else { d with source := SourceKind.Vector })) ∧
    (HybridSearchEngine.query dense lex k).Pairwise (fun a b => b.score ≤ a.score) ∧
    (HybridSearchEngine.query dense lex k).length ≤ k ∧
    HybridSearchEngine.query
      [{ id := "x", score := 9/10, source := SourceKind.Vector }]
      [{ id := "x", score := 1, source := SourceKind.Text }] 10 =
      [{ id := "x", score := 1, source := SourceKind.Text }] := by
  refine ⟨?_, ?_, ?_, by
    norm_num [HybridSearchEngine.query, sortByScoreDesc, mergeById, upsertHit,
      List.insertionSort, List.orderedInsert]⟩
  · intro d hdm t htm heq
    set tagV := fun h : SearchHit => { h with source := SourceKind.Vector } with htagV
    set tagT := fun h : SearchHit => { h with source := SourceKind.Text } with htagT
    have hd2 : ((dense.map tagV).map SearchHit.id).Nodup := by
      simpa [List.map_map, Function.comp] using hd
    have hl2 : ((lex.map tagT).map SearchHit.id).Nodup := by
      simpa [List.map_map, Function.comp] using hl
    have hdm2 : tagV d ∈ dense.map tagV := List.mem_map_of_mem tagV hdm
    have htm2 : tagT t ∈ lex.map tagT := List.mem_map_of_mem tagT htm
    unfold mergeById
    rw [List.foldl_append]
    have hmid : lookupHit ((dense.map tagV).foldl upsertHit []) d.id =
        some (tagV d) := by
      have := lookupHit_foldl_mem (dense.map tagV) [] (tagV d) hd2 hdm2
      simpa [lookupHit, List.find?] using this
    have hfin := lookupHit_foldl_mem (lex.map tagT)
      ((dense.map tagV).foldl upsertHit []) (tagT t) hl2 htm2
    have hidT : (tagT t).id = t.id := rfl
    rw [hidT] at hfin
    rw [heq, hfin]
    rw [← heq, hmid]
    have hred : (match some (tagV d) with
        | none => tagT t
        | some old => if (tagT t).score > old.score then tagT t else old) =
        if (tagT t).score > (tagV d).score then tagT t else tagV d := rfl
    rw [hred]
    simp only [htagV, htagT]
    rw [heq]
  · unfold HybridSearchEngine.query sortByScoreDesc
    haveI htot : IsTotal SearchHit (fun a b => b.score ≤ a.score) :=
      ⟨fun a b => le_total b.score a.score⟩
    haveI htrans : IsTrans SearchHit (fun a b => b.score ≤ a.score) :=
      ⟨fun _ _ _ hab hbc => le_trans hbc hab⟩
    exact List.Pairwise.sublist (List.take_sublist _ _)
      (List.sorted_insertionSort _ _)
  · unfold HybridSearchEngine.query
    exact List.length_take_le _ _

/-- C4 witness: the merge theorem applied at the concrete tie-break
scenario from the spec, both streams having nodup ids. -/
theorem hybrid_query_merge_spec_witness :
    HybridSearchEngine.query
      [{ id := "x", score := 9/10, source := SourceKind.Vector }]
      [{ id := "x", score := 1, source := SourceKind.Text }] 10 =
      [{ id := "x", score := 1, source := SourceKind.Text }] :=
  (hybrid_query_merge_spec
    [{ id := "x", score := 9/10, source := SourceKind.Vector }]
    [{ id := "x", score := 1, source := SourceKind.Text }] 10
    (by decide) (by decide)).2.2.2

/-! ## Chunker (localdb-core data_processor.rs) -/

structure DocumentChunk where
  id : String
  doc_id : String
  doc_path : String
  category : String
  category_text : String
  content : String
  chunk_index : Nat
  total_chunks : Nat
deriving DecidableEq, Repr

structure ChunkingConfig where
  max_tokens : Nat
  overlap_percent : ℚ
deriving DecidableEq, Repr

/-- Embeds the Default impl of ChunkingConfig: max_tokens 500,
overlap_percent 0.2. -/
def ChunkingConfig.defaultConfig : ChunkingConfig :=
  { max_tokens := 500, overlap_percent := 1/5 }

/-- Structural accumulator loop behind splitWords. -/
def wordsAux : List Char → List Char → List String
  | [], cur => if cur.isEmpty then [] else [String.mk cur.reverse]
  | c :: cs, cur =>
    if c.isWhitespace then
      if cur.isEmpty then wordsAux cs [] else String.mk cur.reverse :: wordsAux cs []
    else wordsAux cs (c :: cur)

/-- Splits on whitespace and drops empty fragments, as the Rust
split_whitespace iterator does; written as a structural loop over the
characters so that concrete inputs evaluate. -/
def splitWords (s : String) : List String :=
  wordsAux s.data []

/-- Structural model of str trim: drop whitespace from both ends. -/
def trimStr (s : String) : String :=
  String.mk (((s.data.dropWhile Char.isWhitespace).reverse.dropWhile
    Char.isWhitespace).reverse)

/-- Structural accumulator loop behind splitParas: split on the literal
two-newline separator, scanning left to right without overlap, exactly
as the Rust split call on a two-character pattern does. -/
def splitParasAux : List Char → List Char → List String
  | [], cur => [String.mk cur.reverse]
  | '\n' :: '\n' :: cs, cur => String.mk cur.reverse :: splitParasAux cs []
  | c :: cs, cur => splitParasAux cs (c :: cur)

/-- Model of content split on the blank-line separator. -/
def splitParas (s : String) : List String :=
  splitParasAux s.data []

/-- Structural model of the Rust slice join with a separator. -/
def joinSep (sep : String) : List String → String
  | [] => ""
  | [x] => x
  | x :: xs => x ++ sep ++ joinSep sep xs

/-- Embeds count_tokens: word_count as f32 divided by 0.75 then cast to
usize, a truncating cast; on naturals this is the floor of 4w/3, written
here as natural division. -/
def count_tokens (s : String) : Nat :=
  (splitWords s).length * 4 / 3

/-- Embeds the overlap_words computation inside
split_paragraph_with_overlap: 300 as f32 times overlap_percent, cast to
usize (floor, saturating at zero for negative values). -/
def overlapWords (cfg : ChunkingConfig) : Nat :=
  Int.toNat ⌊(300 : ℚ) * cfg.overlap_percent⌋

/-- Embeds the while loop of split_paragraph_with_overlap. The fuel
argument makes the recursion total; with the default overlap of 60 words
against windows of 300 the loop advances at least 240 words per
iteration, so fuel of one more than the word count is never exhausted
(the Rust loop does not terminate at all when overlap reaches the window
size, which no configuration in the repository does). -/
def splitWindows (words : List String) (wpc overlap : Nat) : Nat → Nat → List String
  | 0, _ => []
  | fuel + 1, start =>
    if start < words.length then
      let e := min (start + wpc) words.length
      let chunk := joinSep " " ((words.drop start).take (e - start))
      if words.length ≤ e then [chunk]
      else chunk :: splitWindows words wpc overlap fuel (e - overlap)
    else []

/-- Embeds split_paragraph_with_overlap: word windows of 300 words with
the configured overlap between consecutive windows. -/
def split_paragraph_with_overlap (cfg : ChunkingConfig) (paragraph : String) : List String :=
  let words := splitWords paragraph
  splitWindows words 300 (overlapWords cfg) (words.length + 1) 0

/-- One emitted chunk, as built inline in chunk_content. -/
def mkChunk (docId docPath category content : String) (idx : Nat) : DocumentChunk :=
  { id := docId ++ ":" ++ toString idx, doc_id := docId, doc_path := docPath,
    category := category, category_text := category, content := content,
    chunk_index := idx, total_chunks := 0 }

/-- Embeds the body of the paragraph loop in chunk_content: trim, skip
empties, emit the paragraph whole when the token estimate fits
max_tokens, otherwise emit its word windows; the counter mirrors the
chunk_index variable of the source. -/
def chunkStep (cfg : ChunkingConfig) (docId docPath category : String)
    (acc : List DocumentChunk × Nat) (para : String) : List DocumentChunk × Nat :=
  let p := trimStr para
  if p = "" then acc
  else if count_tokens p ≤ cfg.max_tokens then
    (acc.1 ++ [mkChunk docId docPath category p acc.2], acc.2 + 1)
  else
    (split_paragraph_with_overlap cfg p).foldl
      (fun acc2 sub => (acc2.1 ++ [mkChunk docId docPath category sub acc2.2], acc2.2 + 1))
      acc

/-- Embeds chunk_content: split on blank lines, run the paragraph loop,
then set total_chunks on every chunk to the final count. -/
def chunk_content (cfg : ChunkingConfig) (content docId docPath category : String) :
    List DocumentChunk :=
  let chunks := ((splitParas content).foldl
    (chunkStep cfg docId docPath category) ([], 0)).1
  chunks.map (fun c => { c with total_chunks := chunks.length })

/-! ## Chunker: get_facet_from_path (localdb-core data_processor.rs) -/

/-- Embeds get_facet_from_path with paths rendered as component lists:
strip the data-dir components when they are a prefix, then render the
parent of the relative path joined by slashes; only a path with no
parent at all (the empty relative path) yields misc. -/
def get_facet_from_path (file_path data_dir : List String) : String :=
  let rel := if data_dir.isPrefixOf file_path then file_path.drop data_dir.length
             else file_path
  if rel.isEmpty then "misc"
  else joinSep "/" rel.dropLast

/-! ## Theorems for C9 -/

/-- The loop invariant of chunk_content: the counter equals the number of
chunks emitted so far, indices are contiguous from 0, and every chunk
carries the document id. -/
def chunkAccInv (docId : String) (acc : List DocumentChunk × Nat) : Prop :=
  acc.2 = acc.1.length ∧
  acc.1.map DocumentChunk.chunk_index = List.range acc.1.length ∧
  ∀ c ∈ acc.1, c.doc_id = docId

theorem chunkAccInv_append (docId docPath cat s : String)
    (acc : List DocumentChunk × Nat) (h : chunkAccInv docId acc) :
    chunkAccInv docId (acc.1 ++ [mkChunk docId docPath cat s acc.2], acc.2 + 1) := by
  obtain ⟨h1, h2, h3⟩ := h
  refine ⟨by simp [h1], ?_, ?_⟩
  · simp only [List.map_append, List.length_append, List.map_cons, List.map_nil,
      List.length_cons, List.length_nil]
    rw [h2, h1]
    simp [mkChunk, List.range_succ]
  · intro c hc
    rcases List.mem_append.mp hc with h | h
    · exact h3 c h
    · simp only [List.mem_singleton] at h
      subst h
      rfl

theorem chunkAccInv_foldl_subs (docId docPath cat : String) (subs : List String)
    (acc : List DocumentChunk × Nat) (h : chunkAccInv docId acc) :
    chunkAccInv docId (subs.foldl
      (fun acc2 sub => (acc2.1 ++ [mkChunk docId docPath cat sub acc2.2], acc2.2 + 1)) acc) := by
  induction subs generalizing acc with
  | nil => exact h
  | cons s ss ih =>
    rw [List.foldl_cons]
    exact ih _ (chunkAccInv_append docId docPath cat s acc h)

theorem chunkAccInv_step (cfg : ChunkingConfig) (docId docPath cat para : String)
    (acc : List DocumentChunk × Nat) (h : chunkAccInv docId acc) :
    chunkAccInv docId (chunkStep cfg docId docPath cat acc para) := by
  unfold chunkStep
  by_cases hp : trimStr para = ""
  · simpa [hp] using h
  · by_cases ht : count_tokens (trimStr para) ≤ cfg.max_tokens
    · simpa [hp, ht] using chunkAccInv_append docId docPath cat (trimStr para) acc h
    · simpa [hp, ht] using
        chunkAccInv_foldl_subs docId docPath cat
          (split_paragraph_with_overlap cfg (trimStr para)) acc h

theorem chunkAccInv_foldl_paras (cfg : ChunkingConfig) (docId docPath cat : String)
    (paras : List String) (acc : List DocumentChunk × Nat) (h : chunkAccInv docId acc) :
    chunkAccInv docId (paras.foldl (chunkStep cfg docId docPath cat) acc) := by
  induction paras generalizing acc with
  | nil => exact h
  | cons p ps ih =>
    rw [List.foldl_cons]
    exact ih _ (chunkAccInv_step cfg docId docPath cat p acc h)

/-- C9: the chunks emitted by chunk_content have chunk_index values that
are exactly 0, 1, ..., n-1 in order, every chunk satisfies chunk_index
below total_chunks, total_chunks equals the final chunk count on every
chunk, and all chunks carry the given doc_id. -/
theorem chunk_content_index_invariants (cfg : ChunkingConfig)
    (content docId docPath category : String) :
    ((chunk_content cfg content docId docPath category).map DocumentChunk.chunk_index =
      List.range (chunk_content cfg content docId docPath category).length) ∧
    ∀ c ∈ chunk_content cfg content docId docPath category,
      c.total_chunks = (chunk_content cfg content docId docPath category).length ∧
      c.doc_id = docId ∧
      c.chunk_index < c.total_chunks := by
  have hinv := chunkAccInv_foldl_paras cfg docId docPath category
    (splitParas content) ([], 0) ⟨rfl, rfl, by simp⟩
  set chunks := ((splitParas content).foldl
    (chunkStep cfg docId docPath category) ([], 0)).1 with hch
  obtain ⟨h1, h2, h3⟩ := hinv
  have hq : chunk_content cfg content docId docPath category =
      chunks.map (fun c => { c with total_chunks := chunks.length }) := rfl
  rw [hq]
  constructor
  · rw [List.map_map, List.length_map]
    have hcomp : (DocumentChunk.chunk_index ∘
        fun c => { c with total_chunks := chunks.length }) = DocumentChunk.chunk_index := rfl
    rw [hcomp]
    exact h2
  · intro c hc
    obtain ⟨c0, hc0, rfl⟩ := List.mem_map.mp hc
    refine ⟨by simp, h3 c0 hc0, ?_⟩
    have hmem : c0.chunk_index ∈ chunks.map DocumentChunk.chunk_index :=
      List.mem_map_of_mem DocumentChunk.chunk_index hc0
    rw [h2] at hmem
    simpa using List.mem_range.mp hmem

/-! ## Theorems for C7 -/

/-- Modelled from the spec: token estimate as the ceiling of word count
divided by 0.75. -/
def count_tokens_ceil_spec (s : String) : Nat :=
  ⌈((splitWords s).length : ℚ) / 0.75⌉₊

/-- C7 counterexample: a one-word paragraph has ceil(1 / 0.75) = 2, but
count_tokens truncates and returns 1, so the token estimate is the
floor, not the ceiling, of word_count / 0.75. -/
theorem count_tokens_cex :
    count_tokens "hello" = 1 ∧
    count_tokens_ceil_spec "hello" = 2 ∧
    count_tokens "hello" ≠ count_tokens_ceil_spec "hello" := by
  have hw : (splitWords "hello").length = 1 := by decide
  have hceil : count_tokens_ceil_spec "hello" = 2 := by
    unfold count_tokens_ceil_spec
    rw [hw]
    have : ((1 : ℕ) : ℚ) / 0.75 = 4/3 := by norm_num
    rw [this]
    rw [show ((4 : ℚ)/3) = ((4 : ℚ)/3) from rfl]
    rw [Nat.ceil_eq_iff (by norm_num)]
    norm_num
  have hcount : count_tokens "hello" = 1 := by
    unfold count_tokens
    rw [hw]
  exact ⟨hcount, hceil, by omega⟩

theorem chunk_contents_foldl_subs (docId docPath cat : String) (subs : List String)
    (acc : List DocumentChunk × Nat) :
    ((subs.foldl (fun acc2 sub =>
        (acc2.1 ++ [mkChunk docId docPath cat sub acc2.2], acc2.2 + 1)) acc).1.map
      DocumentChunk.content) =
      acc.1.map DocumentChunk.content ++ subs := by
  induction subs generalizing acc with
  | nil => simp
  | cons s ss ih =>
    rw [List.foldl_cons, ih]
    simp [mkChunk]

theorem chunk_contents_step (cfg : ChunkingConfig) (docId docPath cat para : String)
    (acc : List DocumentChunk × Nat) :
    ((chunkStep cfg docId docPath cat acc para).1.map DocumentChunk.content) =
      acc.1.map DocumentChunk.content ++
        (if trimStr para = "" then []
         else if count_tokens (trimStr para) ≤ cfg.max_tokens then [trimStr para]
         else split_paragraph_with_overlap cfg (trimStr para)) := by
  unfold chunkStep
  by_cases hp : trimStr para = ""
  · simp [hp]
  · by_cases ht : count_tokens (trimStr para) ≤ cfg.max_tokens
    · simp [hp, ht, mkChunk]
    · simp only [hp, ht, if_neg, if_pos, if_false, if_true]
      rw [chunk_contents_foldl_subs]

theorem chunk_contents_foldl_paras (cfg : ChunkingConfig) (docId docPath cat : String)
    (paras : List String) (acc : List DocumentChunk × Nat) :
    ((paras.foldl (chunkStep cfg docId docPath cat) acc).1.map DocumentChunk.content) =
      acc.1.map DocumentChunk.content ++
      paras.flatMap (fun para =>
        if trimStr para = "" then []
        else if count_tokens (trimStr para) ≤ cfg.max_tokens then [trimStr para]
        else split_paragraph_with_overlap cfg (trimStr para)) := by
  induction paras generalizing acc with
  | nil => simp
  | cons p ps ih =>
    rw [List.foldl_cons, ih, chunk_contents_step]
    simp [List.flatMap_cons]

theorem flatMap_trim_filter (g : String → List String) (paras : List String) :
    (paras.flatMap (fun para =>
        if trimStr para = "" then [] else g (trimStr para))) =
      ((paras.map trimStr).filter (fun p => p ≠ "")).flatMap g := by
  induction paras with
  | nil => simp
  | cons p ps ih =>
    by_cases hp : trimStr p = ""
    · simp [List.flatMap_cons, hp, ih]
    · simp [List.flatMap_cons, hp, ih]

/-- C7 amended: the token estimate used by the chunker is the floor (a
truncating cast), not the ceiling, of word_count / 0.75; the default
max_tokens is 500; and the estimate is compared against max_tokens to
decide whether each trimmed non-empty paragraph is emitted unchanged or
split into word windows. -/
theorem count_tokens_floor_and_decision (cfg : ChunkingConfig)
    (s content docId docPath category : String) :
    (count_tokens s = ⌊((splitWords s).length : ℚ) / 0.75⌋₊) ∧
    ChunkingConfig.defaultConfig.max_tokens = 500 ∧
    ((chunk_content cfg content docId docPath category).map DocumentChunk.content =
      (((splitParas content).map trimStr).filter (fun p => p ≠ "")).flatMap
        (fun p => if count_tokens p ≤ cfg.max_tokens then [p]
                  else split_paragraph_with_overlap cfg p)) := by
  refine ⟨?_, rfl, ?_⟩
  · have h075 : (0.75 : ℚ) = 3/4 := by norm_num
    rw [h075]
    have hdiv : ((splitWords s).length : ℚ) / (3/4) =
        (((splitWords s).length * 4 : ℕ) : ℚ) / ((3 : ℕ) : ℚ) := by
      push_cast
      ring
    rw [hdiv, Nat.floor_div_nat]
    rfl
  · have hq : chunk_content cfg content docId docPath category =
        (((splitParas content).foldl
          (chunkStep cfg docId docPath category) ([], 0)).1).map
          (fun c => { c with total_chunks :=
            (((splitParas content).foldl
              (chunkStep cfg docId docPath category) ([], 0)).1).length }) := rfl
    rw [hq, List.map_map]
    have hcomp : (DocumentChunk.content ∘ fun c : DocumentChunk =>
        { c with total_chunks :=
          (((splitParas content).foldl
            (chunkStep cfg docId docPath category) ([], 0)).1).length }) =
        DocumentChunk.content := rfl
    rw [hcomp, chunk_contents_foldl_paras]
    rw [← flatMap_trim_filter
      (fun p => if count_tokens p ≤ cfg.max_tokens then [p]
                else split_paragraph_with_overlap cfg p) (splitParas content)]
    simp

/-! ## Theorems for C8 -/

/-- C8 counterexample: for a file two directories below the root the
category is a/b with no leading slash, and for a file directly in the
root the category is the empty string, not /misc (nor misc): the claimed
leading-slash format and the /misc fallback both fail on the code. -/
theorem get_facet_from_path_cex :
    get_facet_from_path ["a", "b", "f.txt"] [] = "a/b" ∧
    "a/b" ≠ "/a/b" ∧
    get_facet_from_path ["f.txt"] [] = "" ∧
    ("" : String) ≠ "/misc" ∧ ("" : String) ≠ "misc" := by
  refine ⟨by decide, by decide, by decide, by decide, by decide⟩

/-- C8 amended: for a file under the walk root the category equals the
parent directory components of the path relative to the root joined by
slashes with no leading slash (a/b for two levels, a for one, and the
empty string for a file directly in the root); misc appears only when
the relative path has no parent at all, which the walk never produces
for selected files. -/
theorem get_facet_from_path_relative (root rest : List String) (fname : String) :
    get_facet_from_path (root ++ (rest ++ [fname])) root = joinSep "/" rest ∧
    get_facet_from_path (root ++ [fname]) root = "" ∧
    get_facet_from_path [] [] = "misc" := by
  have hpre : ∀ l : List String, root.isPrefixOf (root ++ l) = true := by
    intro l
    rw [List.isPrefixOf_iff_prefix]
    exact List.prefix_append root l
  have hmain : ∀ l : List String, l ≠ [] →
      get_facet_from_path (root ++ l) root = joinSep "/" l.dropLast := by
    intro l hl
    unfold get_facet_from_path
    rw [hpre l]
    simp only [if_true, List.drop_left]
    rw [if_neg (by simpa [List.isEmpty_iff] using hl)]
  refine ⟨?_, ?_, by decide⟩
  · have := hmain (rest ++ [fname]) (by simp)
    rwa [List.dropLast_concat] at this
  · have := hmain [fname] (by simp)
    simpa [joinSep] using this

/-! ## Cache layer (localdb-vector cache.rs) -/

/-- Embeds the EMBEDDING_DIM constant from schema.rs. -/
def EMBEDDING_DIM : Nat := 1024

structure CacheRow where
  content_hash : String
  embedder_id : String
  created_at : Nat
  vector : List ℚ
deriving DecidableEq, Repr

structure CacheEntry where
  content_hash : String
  embedder_id : String
  vector : List ℚ
deriving DecidableEq, Repr

/-- A HashMap insert over an association list: replace the entry of the
key when present, append otherwise. -/
def hmInsert (m : List (String × List ℚ)) (key : String) (v : List ℚ) :
    List (String × List ℚ) :=
  match m with
  | [] => [(key, v)]
  | p :: ps => if p.1 = key then (key, v) :: ps else p :: hmInsert ps key v

/-- A HashMap get over an association list. -/
def hmLookup (m : List (String × List ℚ)) (key : String) : Option (List ℚ) :=
  (m.find? (fun p => p.1 == key)).map Prod.snd

/-- The row filter inside the get_many scan loop: matching embedder,
requested hash, and stored vector of length EMBEDDING_DIM. -/
def cacheRowQual (embedder_id : String) (hashes : List String) (r : CacheRow) : Prop :=
  r.embedder_id = embedder_id ∧ r.content_hash ∈ hashes ∧
  r.vector.length = EMBEDDING_DIM

instance (embedder_id : String) (hashes : List String) (r : CacheRow) :
    Decidable (cacheRowQual embedder_id hashes r) := by
  unfold cacheRowQual
  infer_instance

/-- Embeds get_many from cache.rs: scan every cache row in order, skip
rows of other embedders, rows whose hash was not requested, and rows of
the wrong stored length, and insert the rest into a map so that a later
row overwrites an earlier one with the same hash. -/
def get_many (cache : List CacheRow) (embedder_id : String) (hashes : List String) :
    List (String × List ℚ) :=
  cache.foldl (fun out r =>
    if cacheRowQual embedder_id hashes r then hmInsert out r.content_hash r.vector
    else out) []

/-- Embeds put_many from cache.rs: no-op on an empty entry list, otherwise
append one row per entry with the current timestamp. -/
def put_many (cache : List CacheRow) (now : Nat) (entries : List CacheEntry) :
    List CacheRow :=
  if entries.isEmpty then cache
  else cache ++ entries.map (fun e =>
    { content_hash := e.content_hash, embedder_id := e.embedder_id,
      created_at := now, vector := e.vector })

/-! ## Theorems for C10 -/

theorem hmLookup_hmInsert (m : List (String × List ℚ)) (key : String) (v : List ℚ)
    (i : String) :
    hmLookup (hmInsert m key v) i = if i = key then some v else hmLookup m i := by
  induction m with
  | nil =>
    by_cases hik : i = key
    · simp [hmInsert, hmLookup, List.find?, hik]
    · have h1 : (key == i) = false := by
        rw [beq_eq_false_iff_ne]
        exact Ne.symm hik
      simp [hmInsert, hmLookup, List.find?, h1, hik]
  | cons p ps ih =>
    by_cases hpk : p.1 = key
    · by_cases hik : i = key
      · simp [hmInsert, hmLookup, List.find?, hpk, hik]
      · have h1 : (key == i) = false := by
          rw [beq_eq_false_iff_ne]
          exact Ne.symm hik
        have h2 : (p.1 == i) = false := by
          rw [beq_eq_false_iff_ne, hpk]
          exact Ne.symm hik
        simp [hmInsert, hmLookup, List.find?, hpk, h1, h2, hik]
    · by_cases hpi : p.1 = i
      · have hik : ¬ i = key := fun he => hpk (hpi.trans he)
        simp [hmInsert, hmLookup, List.find?, hpk, hpi, hik]
      · simp only [hmInsert, if_neg hpk, hmLookup, List.find?,
          show (p.1 == i) = false by simp [hpi]] at ih ⊢
        exact ih

/-- The step function of the get_many scan. -/
def getManyStep (embedder_id : String) (hashes : List String)
    (out : List (String × List ℚ)) (r : CacheRow) : List (String × List ℚ) :=
  if cacheRowQual embedder_id hashes r then hmInsert out r.content_hash r.vector
  else out

theorem get_many_eq_foldl (cache : List CacheRow) (eid : String) (hashes : List String) :
    get_many cache eid hashes = cache.foldl (getManyStep eid hashes) [] := rfl

theorem getMany_fold_lookup (eid : String) (hashes : List String) (h : String)
    (cache : List CacheRow) :
    ∀ m : List (String × List ℚ),
    hmLookup (cache.foldl (getManyStep eid hashes) m) h =
      match (cache.filter (fun r =>
        decide (cacheRowQual eid hashes r ∧ r.content_hash = h))).getLast? with
      | some r => some r.vector
      | none => hmLookup m h := by
  induction cache using List.reverseRecOn with
  | nil => intro m; simp
  | append_singleton l r ih =>
    intro m
    rw [List.foldl_append, List.foldl_cons, List.foldl_nil, List.filter_append]
    by_cases hq : cacheRowQual eid hashes r ∧ r.content_hash = h
    · have hfr : List.filter (fun r =>
          decide (cacheRowQual eid hashes r ∧ r.content_hash = h)) [r] = [r] := by
        simp [hq]
      rw [hfr, List.getLast?_append]
      simp only [List.getLast?_singleton, Option.or]
      unfold getManyStep
      rw [if_pos hq.1, hmLookup_hmInsert]
      rw [if_pos hq.2.symm]
    · have hfr : List.filter (fun r =>
          decide (cacheRowQual eid hashes r ∧ r.content_hash = h)) [r] = [] := by
        simp [hq]
      rw [hfr, List.append_nil]
      unfold getManyStep
      by_cases hq1 : cacheRowQual eid hashes r
      · have hhash : ¬ r.content_hash = h := fun he => hq ⟨hq1, he⟩
        rw [if_pos hq1, hmLookup_hmInsert, if_neg (fun he => hhash he.symm)]
        exact ih m
      · rw [if_neg hq1]
        exact ih m

/-- The row written by put_many for one entry at a given timestamp. -/
def entryRow (now : Nat) (e : CacheEntry) : CacheRow :=
  { content_hash := e.content_hash, embedder_id := e.embedder_id,
    created_at := now, vector := e.vector }

/-- Rows written by put_many for an entry list at a given timestamp. -/
def putRows (now : Nat) (entries : List CacheEntry) : List CacheRow :=
  entries.map (entryRow now)

theorem put_many_eq_append (cache : List CacheRow) (now : Nat)
    (entries : List CacheEntry) (hne : ¬ entries.isEmpty) :
    put_many cache now entries = cache ++ putRows now entries := by
  unfold put_many putRows
  rw [if_neg hne]
  rfl

/-- C10: running put_many twice on the same entry list leaves the cache
observationally unchanged: every get_many read returns the same
hash-to-vector mapping as after a single put_many, because the duplicate
rows carry equal vectors and the later row wins on read. -/
theorem put_many_idempotent (cache : List CacheRow) (E : List CacheEntry)
    (now1 now2 : Nat) (eid : String) (hashes : List String) (h : String) :
    hmLookup (get_many (put_many (put_many cache now1 E) now2 E) eid hashes) h =
      hmLookup (get_many (put_many cache now1 E) eid hashes) h := by
  by_cases hE : E.isEmpty
  · simp [put_many, hE]
  · rw [put_many_eq_append _ _ _ hE, put_many_eq_append _ _ _ hE]
    rw [get_many_eq_foldl, get_many_eq_foldl,
      getMany_fold_lookup eid hashes h, getMany_fold_lookup eid hashes h]
    rw [List.filter_append, List.filter_append]
    set p : CacheRow → Bool := fun r =>
      decide (cacheRowQual eid hashes r ∧ r.content_hash = h) with hp
    have hrows : ∀ now : Nat, (putRows now E).filter p =
        (E.filter (p ∘ entryRow now)).map (entryRow now) := by
      intro now
      unfold putRows
      exact List.filter_map _ _
    have hpe : ∀ now : Nat, (p ∘ entryRow now) = (p ∘ entryRow 0) := by
      intro now
      rfl
    rw [List.getLast?_append, List.getLast?_append]
    rw [hrows now1, hrows now2, hpe now1, hpe now2]
    rw [List.getLast?_map, List.getLast?_map]
    cases hlast : (E.filter (p ∘ entryRow 0)).getLast? with
    | none => rfl
    | some e => rfl

/-! ## Backfill engine (localdb-vector embed_backfill.rs) -/

structure DocRow where
  id : String
  content : String
  embedding_status : String
  embedding_error : Option String
  embedding_version : Nat
  embedded_at : Option Nat
deriving DecidableEq, Repr

structure EmbRow where
  id : String
  embedder_id : String
  content_hash : String
  embedded_at : Nat
  vector : List ℚ
deriving DecidableEq, Repr

/-- The three tables touched by the backfill: documents, the embeddings
side table, and the cache table. -/
structure Store where
  docs : List DocRow
  embRows : List EmbRow
  cache : List CacheRow
deriving Repr

/-- A provider as the backfill sees it: a stable id and a fallible batch
embedding call. -/
structure EmbedProvider where
  embedder_id : String
  embed_batch : List String → Except String (List (List ℚ))

/-- The update marking a batch in_progress (filter id IN the batch). -/
def markInProgress (docs : List DocRow) (ids : List String) : List DocRow :=
  docs.map (fun r => if r.id ∈ ids then { r with embedding_status := "in_progress" } else r)

/-- The update marking the miss rows of a failed batch error with the
message. -/
def markError (docs : List DocRow) (ids : List String) (msg : String) : List DocRow :=
  docs.map (fun r => if r.id ∈ ids then
    { r with embedding_status := "error", embedding_error := some msg } else r)

/-- The update marking a completed batch ready: clear the error, bump the
version, stamp embedded_at. -/
def markReady (docs : List DocRow) (ids : List String) (now : Nat) : List DocRow :=
  docs.map (fun r => if r.id ∈ ids then
    { r with embedding_status := "ready", embedding_error := none,
             embedding_version := r.embedding_version + 1,
             embedded_at := some now } else r)

/-- The cache map consulted for one batch: get_many on the batch hashes.
A chunk element is (id, content, content_hash). -/
def chunkCacheMap (p : EmbedProvider) (st : Store)
    (chunk : List (String × String × String)) : List (String × List ℚ) :=
  get_many st.cache p.embedder_id (chunk.map (fun c => c.2.2))

/-- The cache misses of one batch, in order. -/
def chunkMisses (p : EmbedProvider) (st : Store)
    (chunk : List (String × String × String)) : List (String × String × String) :=
  chunk.filter (fun c => (hmLookup (chunkCacheMap p st chunk) c.2.2).isNone)

/-- The texts sent to the provider for one batch: the contents of the
cache misses. -/
def chunkMissTexts (p : EmbedProvider) (st : Store)
    (chunk : List (String × String × String)) : List String :=
  (chunkMisses p st chunk).map (fun c => c.2.1)

/-- Assembles the per-row vectors of a batch: cache hits from the map,
misses consumed from the provider output in order (the source fills a
vector array indexed by position; an exhausted provider output leaves
the empty placeholder from the initialization). -/
def fillVectors (cmap : List (String × List ℚ)) :
    List (String × String × String) → List (List ℚ) → List (List ℚ)
  | [], _ => []
  | c :: cs, embs =>
    match hmLookup cmap c.2.2 with
    | some v => v :: fillVectors cmap cs embs
    | none => embs.headD [] :: fillVectors cmap cs embs.tail

/-- The embeddings rows appended for one fully assembled batch. -/
def batchEmbRows (p : EmbedProvider) (now : Nat)
    (chunk : List (String × String × String)) (vectors : List (List ℚ)) : List EmbRow :=
  (chunk.zip vectors).map (fun cv =>
    { id := cv.1.1, embedder_id := p.embedder_id, content_hash := cv.1.2.2,
      embedded_at := now, vector := cv.2 })

/-- The cache entries written for the misses of one batch. -/
def batchCacheEntries (p : EmbedProvider) (st : Store)
    (chunk : List (String × String × String)) (embs : List (List ℚ)) : List CacheEntry :=
  ((chunkMisses p st chunk).zip embs).map (fun ce =>
    { content_hash := ce.1.2.2, embedder_id := p.embedder_id, vector := ce.2 })

/-- Embeds the per-batch body of backfill_embeddings: mark the batch
in_progress, consult the cache, embed the misses; a provider error marks
only the miss rows error with the message and skips the batch (the
continue statement); a count mismatch or a wrong-length vector aborts
the whole run with Err; otherwise write cache entries and embeddings
rows for the whole batch, mark it ready and count its rows as
processed. -/
def processBatch (p : EmbedProvider) (now : Nat) (st : Store)
    (chunk : List (String × String × String)) : Except String (Store × Nat) :=
  let ids := chunk.map (fun c => c.1)
  let docs1 := markInProgress st.docs ids
  let cmap := chunkCacheMap p st chunk
  let texts := chunkMissTexts p st chunk
  if texts.isEmpty then
    let vectors := fillVectors cmap chunk []
    Except.ok ({ docs := markReady docs1 ids now,
                 embRows := st.embRows ++ batchEmbRows p now chunk vectors,
                 cache := st.cache }, chunk.length)
  else
    match p.embed_batch texts with
    | Except.error e =>
      let missIds := (chunkMisses p st chunk).map (fun c => c.1)
      Except.ok ({ st with docs := markError docs1 missIds e }, 0)
    | Except.ok embs =>
      if embs.length ≠ texts.length then
        Except.error "embedder returned wrong count"
      else
        match embs.find? (fun v => v.length != EMBEDDING_DIM) with
        | some v =>
          Except.error ("dim mismatch: got " ++ toString v.length ++
            " expected " ++ toString EMBEDDING_DIM)
        | none =>
          let vectors := fillVectors cmap chunk embs
          Except.ok ({ docs := markReady docs1 ids now,
                       embRows := st.embRows ++ batchEmbRows p now chunk vectors,
                       cache := put_many st.cache now
                         (batchCacheEntries p st chunk embs) }, chunk.length)

/-- Structural loop behind chunksOf; the fuel is the list length, which
suffices because every step consumes at least one element when the
chunk size is positive. -/
def chunksOfAux (n : Nat) : Nat → List (String × String × String) →
    List (List (String × String × String))
  | 0, _ => []
  | _, [] => []
  | fuel + 1, l => l.take n :: chunksOfAux n fuel (l.drop n)

/-- Splits the frontier into batches, as the slice chunks call does. The
source panics on a zero batch size; the model returns no batches. -/
def chunksOf (n : Nat) (l : List (String × String × String)) :
    List (List (String × String × String)) :=
  if n = 0 then [] else chunksOfAux n l.length l

/-- The backfill frontier: rows whose status is not ready, in scan order,
carrying the recomputed content hash, truncated by the optional limit.
The hash function stands for the blake3 hex digest. -/
def backfillFrontier (hashF : String → String) (st : Store) (limit : Option Nat) :
    List (String × String × String) :=
  let all := (st.docs.filter (fun r => r.embedding_status ≠ "ready")).map
    (fun r => (r.id, r.content, hashF r.content))
  match limit with
  | some l => all.take l
  | none => all

/-- Embeds backfill_embeddings: scan the frontier, return 0 when it is
empty, otherwise process the batches sequentially, threading the store
and summing the processed counts; the first shape error aborts the whole
fold through the Except monad. -/
def backfill_embeddings (hashF : String → String) (p : EmbedProvider)
    (batch_size : Nat) (limit : Option Nat) (now : Nat) (st : Store) :
    Except String (Store × Nat) :=
  let toProcess := backfillFrontier hashF st limit
  if toProcess.isEmpty then Except.ok (st, 0)
  else
    (chunksOf batch_size toProcess).foldlM
      (fun acc chunk => do
        let r ← processBatch p now acc.1 chunk
        pure (r.1, acc.2 + r.2)) (st, 0)

/-! ## Theorems for C1 -/

/-- A provider returning a wrong-count batch: one vector too few for any
input, triggering the count assertion. -/
def shapeCexProvider : EmbedProvider :=
  { embedder_id := "p", embed_batch := fun _ => Except.ok [] }

/-- A one-document store with a non-ready row. -/
def shapeCexStore : Store :=
  { docs := [{ id := "a", content := "x", embedding_status := "new",
               embedding_error := none, embedding_version := 0, embedded_at := none }],
    embRows := [], cache := [] }

/-- C1 counterexample: when the provider returns a vector count different
from the number of miss texts, backfill_embeddings aborts the whole run
with Err instead of marking the miss rows error and continuing: the run
never returns a store at all. -/
theorem backfill_shape_cex :
    backfill_embeddings (fun s => s) shapeCexProvider 16 none 0 shapeCexStore =
      Except.error "embedder returned wrong count" := by
  rfl

/-- C1 amended: a count mismatch or a wrong-length vector makes the batch
processing return Err immediately, aborting the whole backfill run
without marking any row error; only a provider embed_batch error takes
the mark-error-and-continue path. -/
theorem processBatch_shape_aborts (p : EmbedProvider) (now : Nat) (st : Store)
    (chunk : List (String × String × String))
    (hne : chunkMissTexts p st chunk ≠ []) :
    (∀ embs, p.embed_batch (chunkMissTexts p st chunk) = Except.ok embs →
      embs.length ≠ (chunkMissTexts p st chunk).length →
      processBatch p now st chunk = Except.error "embedder returned wrong count") ∧
    (∀ embs v, p.embed_batch (chunkMissTexts p st chunk) = Except.ok embs →
      embs.length = (chunkMissTexts p st chunk).length →
      embs.find? (fun w => w.length != EMBEDDING_DIM) = some v →
      processBatch p now st chunk =
        Except.error ("dim mismatch: got " ++ toString v.length ++
          " expected " ++ toString EMBEDDING_DIM)) := by
  have hemp : (chunkMissTexts p st chunk).isEmpty = false := by
    cases hc : chunkMissTexts p st chunk with
    | nil => exact absurd hc hne
    | cons a l => rfl
  constructor
  · intro embs hok hlen
    simp only [processBatch, hemp, Bool.false_eq_true, if_false, hok]
    rw [if_pos hlen]
  · intro embs v hok hlen hfind
    simp only [processBatch, hemp, Bool.false_eq_true, if_false, hok]
    rw [if_neg (fun hne2 => hne2 hlen), hfind]

/-- C1 witness: the amended abort behavior at the concrete wrong-count
provider. -/
theorem processBatch_shape_aborts_witness :
    chunkMissTexts shapeCexProvider shapeCexStore [("a", "x", "x")] ≠ [] ∧
    processBatch shapeCexProvider 0 shapeCexStore [("a", "x", "x")] =
      Except.error "embedder returned wrong count" := by
  have hne : chunkMissTexts shapeCexProvider shapeCexStore [("a", "x", "x")] ≠ [] := by
    decide
  exact ⟨hne, (processBatch_shape_aborts shapeCexProvider 0 shapeCexStore
    [("a", "x", "x")] hne).1 [] rfl (by decide)⟩

/-! ## Theorems for C6 -/

theorem markError_markInProgress_status (docs : List DocRow)
    (ids missIds : List String) (e : String) (r : DocRow)
    (hr : r ∈ markError (markInProgress docs ids) missIds e)
    (hin : r.id ∈ ids) (hnm : r.id ∉ missIds) :
    r.embedding_status = "in_progress" := by
  simp only [markError, List.mem_map] at hr
  obtain ⟨r1, hr1, rfl⟩ := hr
  have hid1 : (if r1.id ∈ missIds then
      ({ r1 with embedding_status := "error", embedding_error := some e } : DocRow)
      else r1).id = r1.id := by
    split <;> rfl
  rw [hid1] at hin hnm
  rw [if_neg hnm]
  simp only [markInProgress, List.mem_map] at hr1
  obtain ⟨r0, hr0, rfl⟩ := hr1
  have hid0 : (if r0.id ∈ ids then
      ({ r0 with embedding_status := "in_progress" } : DocRow)
      else r0).id = r0.id := by
    split <;> rfl
  rw [hid0] at hin
  rw [if_pos hin]

/-- The documents table after a provider-error batch: the whole batch
was reserved in_progress and then only the miss rows were marked error
with the message. -/
def errBatchDocs (p : EmbedProvider) (st : Store)
    (chunk : List (String × String × String)) (e : String) : List DocRow :=
  markError (markInProgress st.docs (chunk.map (fun c => c.1)))
    ((chunkMisses p st chunk).map (fun c => c.1)) e

/-- C6: when embed_batch fails for a batch, the batch processing returns
Ok with zero processed rows: only the miss rows are marked error with
the message, the cache-hit rows of the batch stay in_progress, and
neither the embeddings table nor the cache gains a row; any Ok outcome
of such a batch carries count 0, so the failed batch is excluded from
the processed total. -/
theorem processBatch_provider_error (p : EmbedProvider) (now : Nat) (st : Store)
    (chunk : List (String × String × String)) (e : String)
    (hne : chunkMissTexts p st chunk ≠ [])
    (herr : p.embed_batch (chunkMissTexts p st chunk) = Except.error e) :
    processBatch p now st chunk =
      Except.ok ({ st with docs := errBatchDocs p st chunk e }, 0) ∧
    (∀ r ∈ errBatchDocs p st chunk e,
      r.id ∈ chunk.map (fun c => c.1) →
      r.id ∉ (chunkMisses p st chunk).map (fun c => c.1) →
      r.embedding_status = "in_progress" ∧ r.embedding_status ≠ "ready" ∧
        r.embedding_status ≠ "error") ∧
    (∀ st2 n, processBatch p now st chunk = Except.ok (st2, n) →
      st2.embRows = st.embRows ∧ st2.cache = st.cache ∧ n = 0) := by
  have hemp : (chunkMissTexts p st chunk).isEmpty = false := by
    cases hc : chunkMissTexts p st chunk with
    | nil => exact absurd hc hne
    | cons a l => rfl
  have hmain : processBatch p now st chunk =
      Except.ok ({ st with docs := errBatchDocs p st chunk e }, 0) := by
    simp only [processBatch, hemp, Bool.false_eq_true, if_false, herr, errBatchDocs]
  refine ⟨hmain, ?_, ?_⟩
  · intro r hr hin hnm
    have hr2 : r ∈ markError (markInProgress st.docs (chunk.map (fun c => c.1)))
        ((chunkMisses p st chunk).map (fun c => c.1)) e := hr
    have hst := markError_markInProgress_status st.docs (chunk.map (fun c => c.1))
      ((chunkMisses p st chunk).map (fun c => c.1)) e r hr2 hin hnm
    refine ⟨hst, ?_, ?_⟩
    · rw [hst]; decide
    · rw [hst]; decide
  · intro st2 n hok
    rw [hmain] at hok
    have h1 := Except.ok.inj hok
    have h2 : st2 = { st with docs := errBatchDocs p st chunk e } :=
      (congrArg Prod.fst h1).symm
    have h3 : n = 0 := (congrArg Prod.snd h1).symm
    rw [h2]
    exact ⟨rfl, rfl, h3⟩

/-- A provider whose embed_batch always fails. -/
def errProvider : EmbedProvider :=
  { embedder_id := "p", embed_batch := fun _ => Except.error "boom" }

/-- A two-document store with non-ready rows. -/
def errStore : Store :=
  { docs := [{ id := "a", content := "x", embedding_status := "new",
               embedding_error := none, embedding_version := 0, embedded_at := none },
             { id := "b", content := "y", embedding_status := "new",
               embedding_error := none, embedding_version := 0, embedded_at := none }],
    embRows := [], cache := [] }

/-- C6 witness: the provider-error theorem applied at a concrete failing
batch of two miss rows. -/
theorem processBatch_provider_error_witness :
    processBatch errProvider 0 errStore [("a", "x", "x"), ("b", "y", "y")] =
      Except.ok ({ errStore with
        docs := errBatchDocs errProvider errStore
          [("a", "x", "x"), ("b", "y", "y")] "boom" }, 0) := by
  have h := processBatch_provider_error errProvider 0 errStore
    [("a", "x", "x"), ("b", "y", "y")] "boom" (by decide) rfl
  exact h.1
